import Mathlib

/-!
Verification of the TactileWeb HTML-to-text extractor.

Shallow embedding of `src/tactility-src/main/Source/html2text/html2text.cpp`
(functions `SearchHtmlTag` and `html2text_c`) and proofs about it.

Modelling conventions:

* A byte sequence is a `List Nat`, one `Nat` per byte.  Byte constants used by
  the code: `0` = NUL, `32` = `' '`, `60` = `'<'`, `62` = `'>'`.
* `html2text_c` receives a NUL-terminated C string and computes its length with
  `strlen`; bytes at and after the first NUL are invisible to it.  This is
  modelled by `cstrBytes`, which cuts the byte list at the first `0`.
* `local_strncmp(html + i, "<", 1) == 0` is exactly "the byte at the cursor is
  `'<'`", and likewise for `" "` and `">"`; the scanning loops that advance the
  cursor until a byte test flips are modelled with `List.takeWhile` /
  `List.dropWhile` over the remaining suffix of the buffer.  A cursor `i` into
  the buffer is represented by the suffix of the buffer starting at `i`
  (`SearchHtmlTag`'s non-negative return value, an offset, is represented by
  the suffix starting at that offset).
* `isalnum` / `isupper` / `tolower` are the C-locale ASCII classifications,
  which is what the target (newlib, "C" locale) implements for the bytes the
  classification is defined on.
* The recursion of `SearchHtmlTag` (skipping chains of adjacent tags) and the
  driver loop of `html2text_c` are given a fuel argument so that every
  definition is executable by evaluation.  Every call site passes
  `length + 1` fuel, which strictly dominates the recursion depth (each
  recursive call happens on a strictly shorter suffix), so the
  fuel-exhaustion branches are never taken.
* The `HTML_MID` branch of `SearchHtmlTag` scans for `'>'` with no
  end-of-buffer check; if no `'>'` remains, the C code reads past the end of
  the buffer (undefined behavior).  That outcome is modelled by the dedicated
  result `SRes.ub`.  The enum values are `HTML_FIRST` = 0, `HTML_MID` = 1.
-/

namespace TactileWeb

/-- C-locale `isalnum` on a byte: `'0'..'9'`, `'a'..'z'`, `'A'..'Z'`. -/
def c_isalnum (b : Nat) : Bool :=
  decide ((48 ≤ b ∧ b ≤ 57) ∨ (97 ≤ b ∧ b ≤ 122) ∨ (65 ≤ b ∧ b ≤ 90))

/-- C-locale `isupper` on a byte: `'A'..'Z'`. -/
def c_isupper (b : Nat) : Bool :=
  decide (65 ≤ b ∧ b ≤ 90)

/-- Result of `SearchHtmlTag`. -/
inductive SRes where
  /-- Non-negative return value: the remaining buffer after the skipped
      tag(s), i.e. the suffix starting at the returned offset. -/
  | tag  : List Nat → SRes
  /-- Negative return value (`-1`, `-2` or `-3`), together with the value of
      `*condition` after the call (the `-1` path sets it to `HTML_MID`). -/
  | stop : Int → Nat → SRes
  /-- The `HTML_MID` scan loop ran past the end of the buffer (it has no
      end-of-buffer check): undefined behavior in the C source. -/
  | ub   : SRes
deriving DecidableEq

/-- `SearchHtmlTag(html, offset, condition)`, on the suffix `r` of the buffer
starting at `offset`.

* `offset >= max` (`r = []`) returns `-2`.
* `HTML_FIRST` (= 0): the outer loop advances to the next `'<'` (returning
  `-3` if none is found before the end); the inner loop then advances past the
  `'<'` and scans for `'>'`.  Reaching the end first sets `*condition` to
  `HTML_MID` and returns `-1`.  Otherwise the cursor steps past the `'>'`;
  if the next byte is `'<'` the function recurses (adjacent tags are skipped
  in one call), else the cursor is returned.
* `HTML_MID` (= 1): same `'>'` scan but with no end-of-buffer check
  (`SRes.ub` if no `'>'` remains in the buffer).
* Any other condition value falls through to `return -3`. -/
def searchHtmlTag : Nat → List Nat → Nat → SRes
  | 0, _, cond => .stop (-3) cond
  | fuel + 1, r, cond =>
    if r = [] then .stop (-2) cond
    else
      match cond with
      | 0 =>
        match r.dropWhile (fun b => !(b == 60)) with
        | [] => .stop (-3) 0
        | _ :: r2 =>
          match r2.dropWhile (fun b => !(b == 62)) with
          | [] => .stop (-1) 1
          | _ :: r3 =>
            if r3.head? = some 60 then searchHtmlTag fuel r3 0
            else .tag r3
      | 1 =>
        match r.dropWhile (fun b => !(b == 62)) with
        | [] => .ub
        | _ :: r3 =>
          if r3.head? = some 60 then searchHtmlTag fuel r3 1
          else .tag r3
      | _ => .stop (-3) cond

/-- `SearchHtmlTag` at its canonical (always sufficient) fuel. -/
def searchTagAt (r : List Nat) (cond : Nat) : SRes :=
  searchHtmlTag (r.length + 1) r cond

/-- One candidate token recorded by the driver loop: the raw (untrimmed)
maximal run of non-space, non-`'<'` bytes, and the trimmed word that was
emitted from it. -/
structure Tok where
  raw  : List Nat
  word : List Nat
deriving DecidableEq

/-- Lines 94–95: skip non-alphanumeric bytes at the start and at the end of
the candidate token. -/
def trimWord (w : List Nat) : List Nat :=
  ((w.dropWhile (fun b => !c_isalnum b)).reverse.dropWhile
    (fun b => !c_isalnum b)).reverse

/-- Line 102: convert the first byte to lowercase if it is an uppercase
letter (`tolower` adds 32); the rest of the word is copied verbatim. -/
def lowerFirst : List Nat → List Nat
  | [] => []
  | b :: t => (if c_isupper b then b + 32 else b) :: t

/-- Line 86: a byte that extends the current token run — neither `' '`
nor `'<'`. -/
def tokByte (x : Nat) : Bool :=
  !(x == 32) && !(x == 60)

/-- Line 112: after consuming a token run, advance past the byte at the
cursor unless it is a `'<'` (or the end of the buffer). -/
def skipSpace (rest : List Nat) : List Nat :=
  match rest with
  | [] => []
  | d :: t => if d == 60 then rest else t

/-- The driver loop of `html2text_c` (lines 83–117) on the remaining suffix
`r` of the buffer, with the current value of `condition`.

Returns the bytes written from this point on (the first component; the final
trailing-space removal happens outside the loop), together with two
instrumentation traces: the candidate tokens that were actually emitted, and
the value of `condition` at each `SearchHtmlTag` call.

* If the byte at the cursor is not `'<'`: scan the maximal run of bytes that
  are neither `' '` nor `'<'`; if its raw length is in `(0, 100)`, trim it,
  and if the trimmed word is nonempty, append the word (first letter folded)
  followed by one space.  Then (line 112) if the byte at the cursor is not
  `'<'` (it is then a space), advance past it.
* If the byte at the cursor is `'<'`: call `SearchHtmlTag`; on a negative
  result break out of the loop, else continue at the returned offset.
  (`SRes.ub` cannot occur with `condition = HTML_FIRST`; the loop is made to
  break there, and the trace theorem shows the case is never reached.) -/
def extractLoop : Nat → List Nat → Nat → List Nat × List Tok × List Nat
  | 0, _, _ => ([], [], [])
  | fuel + 1, r, cond =>
    match r with
    | [] => ([], [], [])
    | b :: _ =>
      if b == 60 then
        match searchTagAt r cond with
        | .tag r' =>
          let res := extractLoop fuel r' cond
          (res.1, res.2.1, cond :: res.2.2)
        | .stop _ _ => ([], [], [cond])
        | .ub => ([], [], [cond])
      else
        let raw := r.takeWhile tokByte
        let res := extractLoop fuel (skipSpace (r.dropWhile tokByte)) cond
        if 0 < raw.length ∧ raw.length < 100 then
          let w := trimWord raw
          if 0 < w.length then
            (lowerFirst w ++ 32 :: res.1, ⟨raw, w⟩ :: res.2.1, res.2.2)
          else res
        else res

/-- `strlen` view of the input: the bytes before the first NUL. -/
def cstrBytes (s : List Nat) : List Nat :=
  s.takeWhile (fun b => !(b == 0))

/-- The whole extraction run of `html2text_c` on input `s` (output bytes
before trailing-space removal, plus the two instrumentation traces). -/
def extractRun (s : List Nat) : List Nat × List Tok × List Nat :=
  extractLoop ((cstrBytes s).length + 1) (cstrBytes s) 0

/-- Lines 120–122: remove the trailing separator space, if any. -/
def removeTrailingSpace (l : List Nat) : List Nat :=
  if l.getLast? = some 32 then l.dropLast else l

/-- `html2text_c`: the full extraction (lines 70–126). -/
def html2text_c (s : List Nat) : List Nat :=
  removeTrailingSpace (extractRun s).1

/-- Bytes of a string literal (for concrete test inputs; all literals used
here are ASCII, one byte per character). -/
def strBytes (s : String) : List Nat :=
  s.data.map Char.toNat

/-- No two adjacent bytes of the list are both spaces. -/
def noDoubleSpace : List Nat → Bool
  | a :: b :: t => !(a == 32 && b == 32) && noDoubleSpace (b :: t)
  | _ => true

/-- The list neither starts nor ends with a space, and has no two adjacent
spaces. -/
def spaceNormalized (l : List Nat) : Bool :=
  !(l.head? == some 32) && !(l.getLast? == some 32) && noDoubleSpace l

/-- A well-formed output token: nonempty, at most 99 bytes, free of space,
`'<'` and NUL bytes, its first byte alphanumeric and not uppercase, its last
byte alphanumeric. -/
def niceTok (w : List Nat) : Bool :=
  match w with
  | [] => false
  | h :: _ =>
    c_isalnum h && !(c_isupper h) && decide (w.length ≤ 99)
      && w.all (fun b => !(b == 32) && !(b == 60) && !(b == 0))
      && c_isalnum (w.getLastD 0)

/-- Whether a `SearchHtmlTag` result is the undefined-behavior marker. -/
def isUndefB : SRes → Bool
  | .ub => true
  | _ => false

/-! ## Byte classification lemmas -/

theorem c_isupper_bounds {b : Nat} (h : c_isupper b = true) : 65 ≤ b ∧ b ≤ 90 :=
  of_decide_eq_true h

theorem c_isalnum_ne {b : Nat} (h : c_isalnum b = true) :
    b ≠ 32 ∧ b ≠ 60 ∧ b ≠ 0 := by
  have := of_decide_eq_true h
  refine ⟨?_, ?_, ?_⟩ <;> omega

theorem c_isalnum_of_upper {b : Nat} (h : c_isupper b = true) : c_isalnum b = true := by
  have := c_isupper_bounds h
  exact decide_eq_true (by omega)

theorem lower_of_upper {b : Nat} (h : c_isupper b = true) :
    c_isalnum (b + 32) = true ∧ c_isupper (b + 32) = false := by
  have := c_isupper_bounds h
  constructor
  · exact decide_eq_true (by omega)
  · exact decide_eq_false (by omega)

/-! ## `takeWhile` / `dropWhile` helpers -/

theorem takeWhile_of_all {p : Nat → Bool} {l : List Nat}
    (h : ∀ b ∈ l, p b = true) : l.takeWhile p = l := by
  induction l with
  | nil => rfl
  | cons a t ih =>
    simp only [List.takeWhile_cons, h a (by simp)]
    exact congrArg (a :: ·) (ih fun b hb => h b (by simp [hb]))

theorem dropWhile_of_all {p : Nat → Bool} {l : List Nat}
    (h : ∀ b ∈ l, p b = true) : l.dropWhile p = [] := by
  induction l with
  | nil => rfl
  | cons a t ih =>
    simp only [List.dropWhile_cons, h a (by simp), if_true]
    exact ih fun b hb => h b (by simp [hb])

theorem takeWhile_append_of_all {p : Nat → Bool} {l1 l2 : List Nat}
    (h : ∀ b ∈ l1, p b = true) :
    (l1 ++ l2).takeWhile p = l1 ++ l2.takeWhile p := by
  induction l1 with
  | nil => rfl
  | cons a t ih =>
    simp only [List.cons_append, List.takeWhile_cons, h a (by simp)]
    exact congrArg (a :: ·) (ih fun b hb => h b (by simp [hb]))

theorem dropWhile_append_of_all {p : Nat → Bool} {l1 l2 : List Nat}
    (h : ∀ b ∈ l1, p b = true) :
    (l1 ++ l2).dropWhile p = l2.dropWhile p := by
  induction l1 with
  | nil => rfl
  | cons a t ih =>
    simp only [List.cons_append, List.dropWhile_cons, h a (by simp), if_true]
    exact ih fun b hb => h b (by simp [hb])

theorem takeWhile_append_of_stop {p : Nat → Bool} {l1 l2 : List Nat}
    (h : l1.dropWhile p ≠ []) :
    (l1 ++ l2).takeWhile p = l1.takeWhile p := by
  induction l1 with
  | nil => exact absurd rfl h
  | cons a t ih =>
    cases hp : p a with
    | true =>
      simp only [List.cons_append, List.takeWhile_cons, hp]
      simp only [List.dropWhile_cons, hp, if_true] at h
      exact congrArg (a :: ·) (ih h)
    | false => simp [List.takeWhile_cons, hp]

theorem dropWhile_append_of_stop {p : Nat → Bool} {l1 l2 : List Nat}
    (h : l1.dropWhile p ≠ []) :
    (l1 ++ l2).dropWhile p = l1.dropWhile p ++ l2 := by
  induction l1 with
  | nil => exact absurd rfl h
  | cons a t ih =>
    cases hp : p a with
    | true =>
      simp only [List.cons_append, List.dropWhile_cons, hp, if_true]
      simp only [List.dropWhile_cons, hp, if_true] at h
      exact ih h
    | false => simp [List.dropWhile_cons, hp]

theorem head?_dropWhile {p : Nat → Bool} {l : List Nat} {a : Nat}
    (h : (l.dropWhile p).head? = some a) : p a = false := by
  induction l with
  | nil => simp at h
  | cons b t ih =>
    cases hp : p b with
    | true => exact ih (by simpa [List.dropWhile_cons, hp] using h)
    | false =>
      simp only [List.dropWhile_cons, hp, Bool.false_eq_true, if_false,
        List.head?_cons, Option.some.injEq] at h
      exact h ▸ hp

theorem mem_of_mem_dropWhile {p : Nat → Bool} {l : List Nat} {a : Nat}
    (h : a ∈ l.dropWhile p) : a ∈ l :=
  (List.dropWhile_sublist p).mem h

theorem mem_of_mem_takeWhile {p : Nat → Bool} {l : List Nat} {a : Nat}
    (h : a ∈ l.takeWhile p) : a ∈ l :=
  (List.takeWhile_sublist p).mem h

theorem length_dropWhile_le (p : Nat → Bool) (l : List Nat) :
    (l.dropWhile p).length ≤ l.length :=
  (List.dropWhile_sublist p).length_le

/-! ## Trimming and first-letter folding -/

/-- The front-trimmed word splits as the fully trimmed word followed by the
trimmed-off non-alphanumeric tail. -/
theorem dropWhile_eq_trim_append (w : List Nat) :
    w.dropWhile (fun b => !c_isalnum b) =
      trimWord w ++
        ((w.dropWhile (fun b => !c_isalnum b)).reverse.takeWhile
          (fun b => !c_isalnum b)).reverse := by
  unfold trimWord
  conv_lhs => rw [← List.reverse_reverse (w.dropWhile (fun b => !c_isalnum b)),
    ← List.takeWhile_append_dropWhile (fun b => !c_isalnum b)
      (w.dropWhile (fun b => !c_isalnum b)).reverse]
  rw [List.reverse_append]

theorem trimWord_head_alnum {w : List Nat} {b : Nat} {t : List Nat}
    (h : trimWord w = b :: t) : c_isalnum b = true := by
  have hsplit := dropWhile_eq_trim_append w
  rw [h] at hsplit
  have hh : (w.dropWhile (fun b => !c_isalnum b)).head? = some b := by
    rw [hsplit]; simp
  have := head?_dropWhile hh
  simpa using this

theorem trimWord_getLast_alnum {w : List Nat} {b : Nat}
    (h : (trimWord w).getLast? = some b) : c_isalnum b = true := by
  unfold trimWord at h
  rw [List.getLast?_reverse] at h
  have := head?_dropWhile h
  simpa using this

theorem mem_of_mem_trimWord {w : List Nat} {b : Nat}
    (h : b ∈ trimWord w) : b ∈ w := by
  unfold trimWord at h
  rw [List.mem_reverse] at h
  have h1 := mem_of_mem_dropWhile h
  rw [List.mem_reverse] at h1
  exact mem_of_mem_dropWhile h1

theorem length_trimWord_le (w : List Nat) : (trimWord w).length ≤ w.length := by
  unfold trimWord
  calc ((w.dropWhile (fun b => !c_isalnum b)).reverse.dropWhile
          (fun b => !c_isalnum b)).reverse.length
      = ((w.dropWhile (fun b => !c_isalnum b)).reverse.dropWhile
          (fun b => !c_isalnum b)).length := List.length_reverse _
    _ ≤ (w.dropWhile (fun b => !c_isalnum b)).reverse.length :=
        length_dropWhile_le _ _
    _ = (w.dropWhile (fun b => !c_isalnum b)).length := List.length_reverse _
    _ ≤ w.length := length_dropWhile_le _ _

/-- A word whose first and last bytes are alphanumeric is left unchanged by
trimming. -/
theorem trimWord_eq_self {h : Nat} {t : List Nat}
    (hh : c_isalnum h = true) (hl : ∀ b, (h :: t).getLast? = some b → c_isalnum b = true) :
    trimWord (h :: t) = h :: t := by
  unfold trimWord
  have h1 : (h :: t).dropWhile (fun b => !c_isalnum b) = h :: t := by
    simp [List.dropWhile_cons, hh]
  rw [h1]
  obtain ⟨lb, hlb⟩ : ∃ lb, (h :: t).getLast? = some lb := by
    cases e : (h :: t).getLast? with
    | none => simp at e
    | some lb => exact ⟨lb, rfl⟩
  have hrev : (h :: t).reverse.head? = some lb := by
    rw [List.head?_reverse]; exact hlb
  have h2 : (h :: t).reverse.dropWhile (fun b => !c_isalnum b) = (h :: t).reverse := by
    cases e : (h :: t).reverse with
    | nil => simp
    | cons a r =>
      rw [e] at hrev
      simp only [List.head?_cons, Option.some.injEq] at hrev
      simp [List.dropWhile_cons, hrev ▸ hl lb hlb]
  rw [h2, List.reverse_reverse]

theorem lowerFirst_cons (b : Nat) (t : List Nat) :
    lowerFirst (b :: t) = (if c_isupper b then b + 32 else b) :: t := rfl

theorem lowerFirst_eq_self {b : Nat} {t : List Nat} (h : c_isupper b = false) :
    lowerFirst (b :: t) = b :: t := by
  simp [lowerFirst, h]

theorem length_lowerFirst (w : List Nat) : (lowerFirst w).length = w.length := by
  cases w <;> simp [lowerFirst]

/-! ## Properties of the tag scanner -/

theorem all_of_dropWhile_eq_nil {p : Nat → Bool} {l : List Nat}
    (h : l.dropWhile p = []) : ∀ b ∈ l, p b = true := by
  induction l with
  | nil => intro b hb; simp at hb
  | cons a t ih =>
    intro b hb
    cases hp : p a with
    | false => simp [List.dropWhile_cons, hp] at h
    | true =>
      rw [List.dropWhile_cons, hp, if_pos rfl] at h
      rcases List.mem_cons.mp hb with rfl | hb
      · exact hp
      · exact ih h b hb

/-- A successful tag skip always consumes at least one byte. -/
theorem searchHtmlTag_tag_length {f : Nat} : ∀ {r : List Nat} {c : Nat} {r' : List Nat},
    searchHtmlTag f r c = .tag r' → r'.length < r.length := by
  induction f with
  | zero => intro r c r' h; simp [searchHtmlTag] at h
  | succ f ih =>
    intro r c r' h
    rcases c with _ | _ | c
    · rw [searchHtmlTag] at h
      split at h
      · simp at h
      · split at h
        · simp at h
        · next x r2 e1 =>
          have hl1 : r2.length + 1 ≤ r.length := by
            have := length_dropWhile_le (fun b => !(b == 60)) r
            rw [e1] at this; simpa using this
          split at h
          · simp at h
          · next y r3 e2 =>
            have hl2 : r3.length + 1 ≤ r2.length := by
              have := length_dropWhile_le (fun b => !(b == 62)) r2
              rw [e2] at this; simpa using this
            split at h
            · have := ih h; omega
            · cases h; omega
    · rw [searchHtmlTag] at h
      split at h
      · simp at h
      · split at h
        · simp at h
        · next y r3 e2 =>
          have hl2 : r3.length + 1 ≤ r.length := by
            have := length_dropWhile_le (fun b => !(b == 62)) r
            rw [e2] at this; simpa using this
          split at h
          · have := ih h; omega
          · cases h; omega
    · rw [searchHtmlTag.eq_4 r _ f (by omega) (by omega)] at h
      split at h <;> simp at h

/-- In `HTML_FIRST` mode a successful tag skip consumes at least the `'<'`
and the `'>'`. -/
theorem searchHtmlTag_tag_length_first {f : Nat} : ∀ {r : List Nat} {r' : List Nat},
    searchHtmlTag f r 0 = .tag r' → r'.length + 2 ≤ r.length := by
  induction f with
  | zero => intro r r' h; simp [searchHtmlTag] at h
  | succ f ih =>
    intro r r' h
    rw [searchHtmlTag] at h
    split at h
    · simp at h
    · split at h
      · simp at h
      · next x r2 e1 =>
        have hl1 : r2.length + 1 ≤ r.length := by
          have := length_dropWhile_le (fun b => !(b == 60)) r
          rw [e1] at this; simpa using this
        split at h
        · simp at h
        · next y r3 e2 =>
          have hl2 : r3.length + 1 ≤ r2.length := by
            have := length_dropWhile_le (fun b => !(b == 62)) r2
            rw [e2] at this; simpa using this
          split at h
          · have := ih h; omega
          · cases h; omega

/-- The tag scanner never returns with the cursor on a `'<'`: adjacent tags
are chained past inside the call. -/
theorem searchHtmlTag_tag_head {f : Nat} : ∀ {r : List Nat} {c : Nat} {r' : List Nat},
    searchHtmlTag f r c = .tag r' → (r'.head? == some 60) = false := by
  induction f with
  | zero => intro r c r' h; simp [searchHtmlTag] at h
  | succ f ih =>
    intro r c r' h
    rcases c with _ | _ | c
    · rw [searchHtmlTag] at h
      split at h
      · simp at h
      · split at h
        · simp at h
        · split at h
          · simp at h
          · split at h
            · exact ih h
            · next h60 => cases h; exact beq_eq_false_iff_ne.mpr h60
    · rw [searchHtmlTag] at h
      split at h
      · simp at h
      · split at h
        · simp at h
        · split at h
          · exact ih h
          · next h60 => cases h; exact beq_eq_false_iff_ne.mpr h60
    · rw [searchHtmlTag.eq_4 r _ f (by omega) (by omega)] at h
      split at h <;> simp at h

/-- In `HTML_FIRST` mode the scanner can never reach the unchecked
`HTML_MID` scan: its result is never the undefined-behavior marker. -/
theorem searchHtmlTag_first_not_ub : ∀ (f : Nat) (r : List Nat),
    isUndefB (searchHtmlTag f r 0) = false := by
  intro f
  induction f with
  | zero => intro r; rfl
  | succ f ih =>
    intro r
    rw [searchHtmlTag]
    split
    · rfl
    · split
      · rfl
      · split
        · rfl
        · split
          · exact ih _
          · rfl

/-- Evaluation of a `HTML_FIRST` scan that starts on a `'<'` (the only way
the driver loop ever calls the scanner). -/
theorem searchFirst_cons_lt (f : Nat) (X : List Nat) :
    searchHtmlTag (f + 1) (60 :: X) 0 =
      match X.dropWhile (fun b => !(b == 62)) with
      | [] => .stop (-1) 1
      | _ :: r3 => if r3.head? = some 60 then searchHtmlTag f r3 0 else .tag r3 := by
  rw [searchHtmlTag, if_neg (List.cons_ne_nil 60 X)]
  have h : (60 :: X).dropWhile (fun b => !(b == 60)) = 60 :: X := by
    simp [List.dropWhile_cons]
  rw [h]

theorem searchFirst_cons_none (f : Nat) (X : List Nat)
    (h : X.dropWhile (fun b => !(b == 62)) = []) :
    searchHtmlTag (f + 1) (60 :: X) 0 = .stop (-1) 1 := by
  rw [searchFirst_cons_lt, h]

theorem searchFirst_cons_found (f : Nat) (X : List Nat) (y : Nat) (r3 : List Nat)
    (h : X.dropWhile (fun b => !(b == 62)) = y :: r3) :
    searchHtmlTag (f + 1) (60 :: X) 0 =
      if r3.head? = some 60 then searchHtmlTag f r3 0 else .tag r3 := by
  rw [searchFirst_cons_lt, h]

/-- A `HTML_FIRST` scan on `w ++ '<' :: v`, where no `'>'` occurs in `v`,
compared with the same scan on `w` alone: either both succeed in lockstep
(the appended part left untouched), or the long scan fails and the short
scan either fails as well or succeeds with nothing left. -/
theorem searchHtmlTag_append :
    ∀ (n : Nat) {w v : List Nat} {f g : Nat}, w.length ≤ n →
    62 ∉ v → w.head? = some 60 → w.length < f → w.length < g →
    (∃ w2, searchHtmlTag f (w ++ 60 :: v) 0 = .tag (w2 ++ 60 :: v) ∧
           searchHtmlTag g w 0 = .tag w2) ∨
    ((∃ a b, searchHtmlTag f (w ++ 60 :: v) 0 = .stop a b) ∧
     ((∃ a' b', searchHtmlTag g w 0 = .stop a' b') ∨
       searchHtmlTag g w 0 = .tag [])) := by
  intro n
  induction n with
  | zero =>
    intro w v f g hn _ hw _ _
    cases w with
    | nil => simp at hw
    | cons b wt => simp at hn
  | succ n ih =>
    intro w v f g hn hv hw hf hg
    obtain ⟨wt, rfl⟩ : ∃ wt, w = 60 :: wt := by
      cases w with
      | nil => simp at hw
      | cons b wt =>
        simp only [List.head?_cons, Option.some.injEq] at hw
        exact ⟨wt, by rw [hw]⟩
    have hqv : ∀ b ∈ v, (fun b => !(b == 62)) b = true := by
      intro b hb
      have hb62 : b ≠ 62 := fun e => hv (e ▸ hb)
      simp [hb62]
    obtain ⟨f', rfl⟩ : ∃ f', f = f' + 1 := ⟨f - 1, by simp at hf; omega⟩
    obtain ⟨g', rfl⟩ : ∃ g', g = g' + 1 := ⟨g - 1, by simp at hg; omega⟩
    simp only [List.length_cons] at hn hf hg
    cases eB : wt.dropWhile (fun b => !(b == 62)) with
    | nil =>
      have hL : (wt ++ 60 :: v).dropWhile (fun b => !(b == 62)) = [] := by
        rw [dropWhile_append_of_all (all_of_dropWhile_eq_nil eB), List.dropWhile_cons,
          if_pos (by decide : ((fun b => !(b == 62)) (60 : Nat)) = true)]
        exact dropWhile_of_all hqv
      rw [List.cons_append, searchFirst_cons_none f' _ hL, searchFirst_cons_none g' _ eB]
      exact Or.inr ⟨⟨-1, 1, rfl⟩, Or.inl ⟨-1, 1, rfl⟩⟩
    | cons y r3R =>
      have hlen3 : r3R.length + 1 ≤ wt.length := by
        have := length_dropWhile_le (fun b => !(b == 62)) wt
        rw [eB] at this; simpa using this
      have hLd : (wt ++ 60 :: v).dropWhile (fun b => !(b == 62)) =
          y :: (r3R ++ 60 :: v) := by
        rw [dropWhile_append_of_stop (by rw [eB]; exact List.cons_ne_nil _ _), eB,
          List.cons_append]
      rw [List.cons_append, searchFirst_cons_found f' _ _ _ hLd,
        searchFirst_cons_found g' _ _ _ eB]
      cases r3R with
      | nil =>
        simp only [List.nil_append]
        rw [if_pos (by simp : ((60 : Nat) :: v).head? = some 60),
          if_neg (by simp : ¬(([] : List Nat).head? = some 60))]
        obtain ⟨f'', rfl⟩ : ∃ f'', f' = f'' + 1 := ⟨f' - 1, by omega⟩
        rw [searchFirst_cons_none f'' _ (dropWhile_of_all hqv)]
        exact Or.inr ⟨⟨-1, 1, rfl⟩, Or.inr rfl⟩
      | cons z zt =>
        by_cases hz : z = 60
        · subst hz
          rw [List.cons_append,
            if_pos (by simp : ((60 : Nat) :: (zt ++ 60 :: v)).head? = some 60),
            if_pos (by simp : ((60 : Nat) :: zt).head? = some 60)]
          have := ih (w := 60 :: zt) (v := v) (f := f') (g := g')
            (by simp only [List.length_cons] at hlen3 ⊢; omega) hv (by simp)
            (by simp only [List.length_cons] at hlen3 ⊢; omega)
            (by simp only [List.length_cons] at hlen3 ⊢; omega)
          rwa [List.cons_append] at this
        · rw [List.cons_append,
            if_neg (by simp [hz] : ¬((z :: (zt ++ 60 :: v)).head? = some 60)),
            if_neg (by simp [hz] : ¬((z :: zt).head? = some 60))]
          exact Or.inl ⟨z :: zt, by rw [List.cons_append], rfl⟩

/-! ## Properties of the driver loop -/

theorem extractLoop_nil (f c : Nat) : extractLoop f [] c = ([], [], []) := by
  cases f <;> rfl

theorem mem_of_mem_skipSpace {l : List Nat} {b : Nat}
    (h : b ∈ skipSpace l) : b ∈ l := by
  unfold skipSpace at h
  split at h
  · simp at h
  · split at h
    · exact h
    · exact List.mem_cons_of_mem _ h

/-- A successful tag skip returns a subset (in fact a suffix) of the bytes it
was given. -/
theorem searchHtmlTag_tag_subset {f : Nat} : ∀ {r : List Nat} {c : Nat} {r' : List Nat},
    searchHtmlTag f r c = .tag r' → ∀ b ∈ r', b ∈ r := by
  induction f with
  | zero => intro r c r' h; simp [searchHtmlTag] at h
  | succ f ih =>
    intro r c r' h
    rcases c with _ | _ | c
    · rw [searchHtmlTag] at h
      split at h
      · simp at h
      · split at h
        · simp at h
        · next x r2 e1 =>
          have hsub2 : ∀ b ∈ r2, b ∈ r := by
            intro b hb
            have : b ∈ r.dropWhile (fun b => !(b == 60)) := by
              rw [e1]; exact List.mem_cons_of_mem _ hb
            exact mem_of_mem_dropWhile this
          split at h
          · simp at h
          · next y r3 e2 =>
            have hsub3 : ∀ b ∈ r3, b ∈ r := by
              intro b hb
              have : b ∈ r2.dropWhile (fun b => !(b == 62)) := by
                rw [e2]; exact List.mem_cons_of_mem _ hb
              exact hsub2 _ (mem_of_mem_dropWhile this)
            split at h
            · exact fun b hb => hsub3 b (ih h b hb)
            · cases h; exact hsub3
    · rw [searchHtmlTag] at h
      split at h
      · simp at h
      · split at h
        · simp at h
        · next y r3 e2 =>
          have hsub3 : ∀ b ∈ r3, b ∈ r := by
            intro b hb
            have : b ∈ r.dropWhile (fun b => !(b == 62)) := by
              rw [e2]; exact List.mem_cons_of_mem _ hb
            exact mem_of_mem_dropWhile this
          split at h
          · exact fun b hb => hsub3 b (ih h b hb)
          · cases h; exact hsub3
    · rw [searchHtmlTag.eq_4 r _ f (by omega) (by omega)] at h
      split at h <;> simp at h

theorem extractLoop_tag_eq {f b : Nat} {t : List Nat} {c : Nat} {r' : List Nat}
    (hb : (b == 60) = true) (hs : searchTagAt (b :: t) c = .tag r') :
    extractLoop (f + 1) (b :: t) c =
      ((extractLoop f r' c).1, (extractLoop f r' c).2.1,
        c :: (extractLoop f r' c).2.2) := by
  rw [extractLoop.eq_3, if_pos hb, hs]

theorem extractLoop_stop_eq {f b : Nat} {t : List Nat} {c : Nat} {a : Int} {a2 : Nat}
    (hb : (b == 60) = true) (hs : searchTagAt (b :: t) c = .stop a a2) :
    extractLoop (f + 1) (b :: t) c = ([], [], [c]) := by
  rw [extractLoop.eq_3, if_pos hb, hs]

theorem extractLoop_ub_eq {f b : Nat} {t : List Nat} {c : Nat}
    (hb : (b == 60) = true) (hs : searchTagAt (b :: t) c = .ub) :
    extractLoop (f + 1) (b :: t) c = ([], [], [c]) := by
  rw [extractLoop.eq_3, if_pos hb, hs]

theorem extractLoop_tok_eq {f b : Nat} {t : List Nat} {c : Nat}
    (hb : (b == 60) = false) :
    extractLoop (f + 1) (b :: t) c =
      if 0 < ((b :: t).takeWhile tokByte).length ∧
          ((b :: t).takeWhile tokByte).length < 100 ∧
          0 < (trimWord ((b :: t).takeWhile tokByte)).length then
        (lowerFirst (trimWord ((b :: t).takeWhile tokByte)) ++
            32 :: (extractLoop f (skipSpace ((b :: t).dropWhile tokByte)) c).1,
          ⟨(b :: t).takeWhile tokByte, trimWord ((b :: t).takeWhile tokByte)⟩ ::
            (extractLoop f (skipSpace ((b :: t).dropWhile tokByte)) c).2.1,
          (extractLoop f (skipSpace ((b :: t).dropWhile tokByte)) c).2.2)
      else extractLoop f (skipSpace ((b :: t).dropWhile tokByte)) c := by
  rw [extractLoop.eq_3, if_neg (by simp [hb])]
  simp only []
  by_cases h1 : 0 < ((b :: t).takeWhile tokByte).length ∧
      ((b :: t).takeWhile tokByte).length < 100
  · by_cases h2 : 0 < (trimWord ((b :: t).takeWhile tokByte)).length
    · rw [if_pos h1, if_pos h2, if_pos ⟨h1.1, h1.2, h2⟩]
    · rw [if_pos h1, if_neg h2, if_neg (by tauto)]
  · rw [if_neg h1, if_neg (by tauto)]

/-- The driver loop never changes `condition`: every `SearchHtmlTag` call it
makes receives the condition value the loop started with. -/
theorem extractLoop_conds (f : Nat) : ∀ {r : List Nat} {c x : Nat},
    x ∈ (extractLoop f r c).2.2 → x = c := by
  induction f with
  | zero => intro r c x h; rw [extractLoop.eq_1] at h; simp at h
  | succ f ih =>
    intro r c x h
    cases r with
    | nil => rw [extractLoop.eq_2] at h; simp at h
    | cons b t =>
      cases hb : (b == 60) with
      | true =>
        cases hs : searchTagAt (b :: t) c with
        | tag r' =>
          rw [extractLoop_tag_eq hb hs] at h
          rcases List.mem_cons.mp h with rfl | h'
          · rfl
          · exact ih h'
        | stop a a2 =>
          rw [extractLoop_stop_eq hb hs] at h
          simpa using h
        | ub =>
          rw [extractLoop_ub_eq hb hs] at h
          simpa using h
      | false =>
        rw [extractLoop_tok_eq hb] at h
        split at h
        · exact ih h
        · exact ih h

/-- The bytes produced by the driver loop are exactly the emitted tokens,
each first-letter-folded and followed by one space. -/
theorem extractLoop_out_join (f : Nat) : ∀ {r : List Nat} {c : Nat},
    (extractLoop f r c).1 =
      ((extractLoop f r c).2.1.map (fun tk => lowerFirst tk.word ++ [32])).flatten := by
  induction f with
  | zero => intro r c; rfl
  | succ f ih =>
    intro r c
    cases r with
    | nil => rw [extractLoop.eq_2]; rfl
    | cons b t =>
      cases hb : (b == 60) with
      | true =>
        cases hs : searchTagAt (b :: t) c with
        | tag r' => rw [extractLoop_tag_eq hb hs]; exact ih
        | stop a a2 => rw [extractLoop_stop_eq hb hs]; rfl
        | ub => rw [extractLoop_ub_eq hb hs]; rfl
      | false =>
        rw [extractLoop_tok_eq hb]
        split
        · show lowerFirst (trimWord ((b :: t).takeWhile tokByte)) ++
            32 :: (extractLoop f (skipSpace ((b :: t).dropWhile tokByte)) c).1 = _
          rw [List.map_cons, List.flatten_cons, ih, List.append_assoc,
            List.singleton_append]
        · exact ih

/-- Facts about every token the driver loop emits: the word is the trimmed
raw run, it is nonempty, the raw run is nonempty and under 100 bytes, and
every raw byte is a token byte drawn from the scanned buffer. -/
theorem extractLoop_toks (f : Nat) : ∀ {r : List Nat} {c : Nat} {tk : Tok},
    tk ∈ (extractLoop f r c).2.1 →
      tk.word = trimWord tk.raw ∧ 0 < tk.word.length ∧
      0 < tk.raw.length ∧ tk.raw.length < 100 ∧
      (∀ b ∈ tk.raw, tokByte b = true ∧ b ∈ r) := by
  induction f with
  | zero => intro r c tk h; rw [extractLoop.eq_1] at h; simp at h
  | succ f ih =>
    intro r c tk h
    cases r with
    | nil => rw [extractLoop.eq_2] at h; simp at h
    | cons b t =>
      cases hb : (b == 60) with
      | true =>
        cases hs : searchTagAt (b :: t) c with
        | tag r' =>
          rw [extractLoop_tag_eq hb hs] at h
          have hsub : ∀ b' ∈ r', b' ∈ b :: t := by
            rw [searchTagAt] at hs
            exact searchHtmlTag_tag_subset hs
          obtain ⟨h1, h2, h3, h4, h5⟩ := ih h
          exact ⟨h1, h2, h3, h4, fun b' hb' => ⟨(h5 b' hb').1, hsub b' (h5 b' hb').2⟩⟩
        | stop a a2 =>
          rw [extractLoop_stop_eq hb hs] at h
          simp at h
        | ub =>
          rw [extractLoop_ub_eq hb hs] at h
          simp at h
      | false =>
        have hsub : ∀ b' ∈ skipSpace ((b :: t).dropWhile tokByte), b' ∈ b :: t :=
          fun b' hb' => mem_of_mem_dropWhile (mem_of_mem_skipSpace hb')
        rw [extractLoop_tok_eq hb] at h
        split at h
        · next hcond =>
          rcases List.mem_cons.mp h with rfl | h'
          · refine ⟨rfl, hcond.2.2, hcond.1, hcond.2.1, fun b' hb' => ?_⟩
            exact ⟨List.mem_takeWhile_imp hb', mem_of_mem_takeWhile hb'⟩
          · obtain ⟨h1, h2, h3, h4, h5⟩ := ih h'
            exact ⟨h1, h2, h3, h4, fun b' hb' => ⟨(h5 b' hb').1, hsub b' (h5 b' hb').2⟩⟩
        · obtain ⟨h1, h2, h3, h4, h5⟩ := ih h
          exact ⟨h1, h2, h3, h4, fun b' hb' => ⟨(h5 b' hb').1, hsub b' (h5 b' hb').2⟩⟩

theorem length_takeWhile_le (p : Nat → Bool) (l : List Nat) :
    (l.takeWhile p).length ≤ l.length :=
  (List.takeWhile_sublist p).length_le

/-- Output-size bound for the driver loop (in `HTML_FIRST` mode): at most one
byte of output per remaining input byte, plus one trailing separator unless
the loop starts on a tag. -/
theorem extractLoop_len_le (f : Nat) : ∀ {r : List Nat},
    (extractLoop f r 0).1.length ≤
      r.length + (if r.head? = some 60 then 0 else 1) := by
  induction f with
  | zero => intro r; rw [extractLoop.eq_1]; exact Nat.zero_le _
  | succ f ih =>
    intro r
    cases r with
    | nil => rw [extractLoop.eq_2]; exact Nat.zero_le _
    | cons b t =>
      cases hb : (b == 60) with
      | true =>
        have hb60 : b = 60 := by simpa using hb
        cases hs : searchTagAt (b :: t) 0 with
        | tag r' =>
          rw [extractLoop_tag_eq hb hs]
          have hlen : r'.length + 2 ≤ (b :: t).length :=
            searchHtmlTag_tag_length_first (by rw [searchTagAt] at hs; exact hs)
          have hres : (extractLoop f r' 0).1.length ≤ r'.length + 1 :=
            le_trans ih (by split <;> omega)
          show (extractLoop f r' 0).1.length ≤ _
          rw [if_pos (by simp [hb60])]
          simp only [List.length_cons] at hlen ⊢
          omega
        | stop a a2 => rw [extractLoop_stop_eq hb hs]; exact Nat.zero_le _
        | ub => rw [extractLoop_ub_eq hb hs]; exact Nat.zero_le _
      | false =>
        have hb60 : b ≠ 60 := by simpa using hb
        have hsum : ((b :: t).takeWhile tokByte).length +
            ((b :: t).dropWhile tokByte).length = (b :: t).length := by
          rw [← List.length_append, List.takeWhile_append_dropWhile]
        have hres : (extractLoop f (skipSpace ((b :: t).dropWhile tokByte)) 0).1.length
            ≤ ((b :: t).dropWhile tokByte).length := by
          cases hrest : (b :: t).dropWhile tokByte with
          | nil => simp [skipSpace, extractLoop_nil]
          | cons d t2 =>
            by_cases hd : (d == 60) = true
            · have hskip : skipSpace (d :: t2) = d :: t2 := by simp [skipSpace, hd]
              rw [hskip]
              have hd60 : d = 60 := by simpa using hd
              have := ih (r := d :: t2)
              rw [if_pos (by simp [hd60])] at this
              simpa using this
            · have hskip : skipSpace (d :: t2) = t2 := by simp [skipSpace, hd]
              rw [hskip]
              have h2 : (extractLoop f t2 0).1.length ≤ t2.length + 1 :=
                le_trans (ih (r := t2)) (by split <;> omega)
              simpa [List.length_cons] using h2
        rw [if_neg (show ¬((b :: t).head? = some 60) by simp [hb60]),
          extractLoop_tok_eq hb]
        split
        · show (lowerFirst (trimWord ((b :: t).takeWhile tokByte)) ++
            32 :: (extractLoop f (skipSpace ((b :: t).dropWhile tokByte)) 0).1).length ≤ _
          rw [List.length_append, length_lowerFirst, List.length_cons]
          have htw := length_trimWord_le ((b :: t).takeWhile tokByte)
          omega
        · exact le_trans hres (le_trans (length_dropWhile_le _ _) (Nat.le_succ _))

/-! ## The output as a list of separated tokens -/

/-- The final output: the emitted words joined by single spaces. -/
def renderToks : List (List Nat) → List Nat
  | [] => []
  | [w] => w
  | w :: ws => w ++ 32 :: renderToks ws

theorem flatten_blocks_eq : ∀ (ws : List (List Nat)), ws ≠ [] →
    (ws.map (· ++ [32])).flatten = renderToks ws ++ [32] := by
  intro ws
  induction ws with
  | nil => intro h; exact absurd rfl h
  | cons w ws ih =>
    intro _
    rw [List.map_cons, List.flatten_cons]
    cases ws with
    | nil => simp [renderToks]
    | cons w2 ws2 =>
      rw [ih (List.cons_ne_nil w2 ws2)]
      show _ = (w ++ 32 :: renderToks (w2 :: ws2)) ++ [32]
      simp [List.append_assoc]

theorem removeTrailing_flatten_blocks (ws : List (List Nat)) :
    removeTrailingSpace ((ws.map (· ++ [32])).flatten) = renderToks ws := by
  cases ws with
  | nil => rfl
  | cons w ws2 =>
    rw [flatten_blocks_eq _ (List.cons_ne_nil w ws2)]
    unfold removeTrailingSpace
    rw [if_pos (List.getLast?_concat _)]
    simp

/-- `html2text_c` is exactly the emitted words, first letters folded, joined
by single spaces. -/
theorem html2text_eq_render (s : List Nat) :
    html2text_c s =
      renderToks ((extractRun s).2.1.map (fun tk => lowerFirst tk.word)) := by
  unfold html2text_c
  rw [show (extractRun s).1 =
      ((extractRun s).2.1.map (fun tk => lowerFirst tk.word ++ [32])).flatten from
    extractLoop_out_join _]
  rw [show (fun tk : Tok => lowerFirst tk.word ++ [32]) =
      ((· ++ [32]) ∘ fun tk : Tok => lowerFirst tk.word) from rfl]
  rw [← List.map_map]
  exact removeTrailing_flatten_blocks _

/-! ## Space normalization of the output -/

theorem tokByte_ne {b : Nat} (h : tokByte b = true) : b ≠ 32 ∧ b ≠ 60 := by
  unfold tokByte at h
  obtain ⟨h1, h2⟩ := Bool.and_eq_true_iff.mp h
  exact ⟨by simpa using h1, by simpa using h2⟩

theorem nds_cons_cons (a b : Nat) (t : List Nat) :
    noDoubleSpace (a :: b :: t) =
      (!(a == 32 && b == 32) && noDoubleSpace (b :: t)) := rfl

theorem nds_tail {c : Nat} {X : List Nat}
    (h : noDoubleSpace (c :: X) = true) : noDoubleSpace X = true := by
  cases X with
  | nil => rfl
  | cons d t => rw [nds_cons_cons] at h; exact (Bool.and_eq_true_iff.mp h).2

theorem nds_build : ∀ (w : List Nat) {rest : List Nat}, (∀ x ∈ w, x ≠ 32) →
    noDoubleSpace rest = true → rest.head? ≠ some 32 →
    noDoubleSpace (w ++ 32 :: rest) = true := by
  intro w
  induction w with
  | nil =>
    intro rest _ hr hh
    cases rest with
    | nil => rfl
    | cons r0 rt =>
      have hr0 : r0 ≠ 32 := by simpa using hh
      rw [List.nil_append, nds_cons_cons]
      simp [hr0, hr]
  | cons a w ih =>
    intro rest h hr hh
    have ha : a ≠ 32 := h a (by simp)
    have hwtail : ∀ x ∈ w, x ≠ 32 := fun x hx => h x (List.mem_cons_of_mem _ hx)
    cases w with
    | nil =>
      have := ih (by intro x hx; simp at hx) hr hh
      rw [List.nil_append] at this
      rw [List.cons_append, List.nil_append, nds_cons_cons]
      simp [ha, this]
    | cons a2 w2 =>
      have := ih hwtail hr hh
      rw [List.cons_append] at this ⊢
      rw [List.cons_append, nds_cons_cons]
      simp [ha, this]

theorem nds_init : ∀ (l : List Nat) (x : Nat),
    noDoubleSpace (l ++ [x]) = true → noDoubleSpace l = true := by
  intro l
  induction l with
  | nil => intro x _; rfl
  | cons a t ih =>
    intro x h
    cases t with
    | nil => rfl
    | cons b t2 =>
      rw [List.cons_append, List.cons_append, nds_cons_cons] at h
      obtain ⟨h1, h2⟩ := Bool.and_eq_true_iff.mp h
      rw [← List.cons_append] at h2
      rw [nds_cons_cons, h1, ih x h2]
      rfl

theorem nds_last_pair : ∀ (B : List Nat) {a b : Nat},
    noDoubleSpace (B ++ [a, b]) = true → (a == 32 && b == 32) = false := by
  intro B
  induction B with
  | nil =>
    intro a b h
    rw [List.nil_append, nds_cons_cons] at h
    have h1 := (Bool.and_eq_true_iff.mp h).1
    cases e : (a == 32 && b == 32) with
    | false => rfl
    | true => rw [e] at h1; simp at h1
  | cons c B ih =>
    intro a b h
    rw [List.cons_append] at h
    exact ih (nds_tail h)

/-- The concatenated output blocks have no leading space and no two adjacent
spaces, as long as every word is nonempty and space-free. -/
theorem flatten_blocks_nds : ∀ (ws : List (List Nat)),
    (∀ w ∈ ws, w ≠ [] ∧ ∀ x ∈ w, x ≠ 32) →
    noDoubleSpace ((ws.map (· ++ [32])).flatten) = true ∧
    (∀ a, ((ws.map (· ++ [32])).flatten).head? = some a → a ≠ 32) := by
  intro ws
  induction ws with
  | nil => intro _; exact ⟨rfl, by simp⟩
  | cons w ws ih =>
    intro h
    obtain ⟨hw, hchars⟩ := h w (List.mem_cons_self w ws)
    obtain ⟨ih1, ih2⟩ := ih (fun w' hw' => h w' (List.mem_cons_of_mem _ hw'))
    rw [List.map_cons, List.flatten_cons, List.append_assoc, List.singleton_append]
    constructor
    · exact nds_build w hchars ih1 (fun e => ih2 32 e rfl)
    · intro a ha
      obtain ⟨w0, wt, rfl⟩ : ∃ w0 wt, w = w0 :: wt := by
        cases w with
        | nil => exact absurd rfl hw
        | cons w0 wt => exact ⟨w0, wt, rfl⟩
      rw [List.cons_append, List.head?_cons, Option.some.injEq] at ha
      exact ha ▸ hchars w0 (by simp)

/-- Full space normalization of the final output built from nonempty,
space-free words. -/
theorem render_spaceNormalized (ws : List (List Nat))
    (h : ∀ w ∈ ws, w ≠ [] ∧ ∀ x ∈ w, x ≠ 32) :
    spaceNormalized (renderToks ws) = true := by
  obtain ⟨hnds, hhead⟩ := flatten_blocks_nds ws h
  cases hws : ws with
  | nil => rfl
  | cons w ws2 =>
    rw [← hws]
    have hfl : (ws.map (· ++ [32])).flatten = renderToks ws ++ [32] :=
      flatten_blocks_eq ws (by rw [hws]; exact List.cons_ne_nil _ _)
    rw [hfl] at hnds hhead
    unfold spaceNormalized
    refine Bool.and_eq_true_iff.mpr ⟨Bool.and_eq_true_iff.mpr ⟨?_, ?_⟩, ?_⟩
    · -- no leading space
      cases hR : renderToks ws with
      | nil => rfl
      | cons r0 rt =>
        have : r0 ≠ 32 := by
          refine hhead r0 ?_
          rw [hR, List.cons_append, List.head?_cons]
        simp [this]
    · -- no trailing space
      cases hL : (renderToks ws).getLast? with
      | none => rfl
      | some la =>
        have hsplit : (renderToks ws).dropLast ++ [la] = renderToks ws :=
          List.dropLast_append_getLast? la hL
        have hpair : (la == 32 && (32 : Nat) == 32) = false := by
          refine nds_last_pair (renderToks ws).dropLast ?_
          rw [show (renderToks ws).dropLast ++ [la, 32] =
              ((renderToks ws).dropLast ++ [la]) ++ [32] by simp, hsplit]
          exact hnds
        simp only [beq_self_eq_true, Bool.and_true] at hpair
        simp [hpair]
    · -- no double space
      exact nds_init _ 32 hnds

/-! ## Well-formedness of the emitted words -/

theorem niceTok_cons {h : Nat} {t : List Nat}
    (h1 : c_isalnum h = true) (h2 : c_isupper h = false)
    (h3 : (h :: t).length ≤ 99)
    (h4 : ∀ b ∈ h :: t, b ≠ 32 ∧ b ≠ 60 ∧ b ≠ 0)
    (h5 : c_isalnum ((h :: t).getLastD 0) = true) :
    niceTok (h :: t) = true := by
  unfold niceTok
  refine Bool.and_eq_true_iff.mpr ⟨Bool.and_eq_true_iff.mpr
    ⟨Bool.and_eq_true_iff.mpr ⟨Bool.and_eq_true_iff.mpr ⟨h1, ?_⟩, ?_⟩, ?_⟩, h5⟩
  · simp [h2]
  · exact decide_eq_true h3
  · refine List.all_eq_true.mpr fun b hb => ?_
    obtain ⟨hb1, hb2, hb3⟩ := h4 b hb
    simp [hb1, hb2, hb3]

theorem niceTok_elim {w : List Nat} (h : niceTok w = true) :
    ∃ w0 wt, w = w0 :: wt ∧ c_isalnum w0 = true ∧ c_isupper w0 = false ∧
      w.length ≤ 99 ∧ (∀ b ∈ w, b ≠ 32 ∧ b ≠ 60 ∧ b ≠ 0) ∧
      c_isalnum (w.getLastD 0) = true := by
  cases w with
  | nil => simp [niceTok] at h
  | cons w0 wt =>
    unfold niceTok at h
    obtain ⟨h1234, h5⟩ := Bool.and_eq_true_iff.mp h
    obtain ⟨h123, h4⟩ := Bool.and_eq_true_iff.mp h1234
    obtain ⟨h12, h3⟩ := Bool.and_eq_true_iff.mp h123
    obtain ⟨h1, h2⟩ := Bool.and_eq_true_iff.mp h12
    refine ⟨w0, wt, rfl, h1, by simpa using h2, of_decide_eq_true h3, ?_, h5⟩
    intro b hb
    have := List.all_eq_true.mp h4 b hb
    refine ⟨?_, ?_, ?_⟩ <;> [skip; skip; skip] <;>
      · intro e
        subst e
        simp at this

/-- Every token emitted from the NUL-clipped input, after first-letter
folding, is a well-formed output word. -/
theorem toks_word_nice {s : List Nat} {tk : Tok}
    (h : tk ∈ (extractRun s).2.1) : niceTok (lowerFirst tk.word) = true := by
  obtain ⟨hword, hwpos, hrpos, hrlen, hchars⟩ :=
    extractLoop_toks ((cstrBytes s).length + 1) (r := cstrBytes s) (c := 0) h
  obtain ⟨w0, wt, hw⟩ : ∃ w0 wt, tk.word = w0 :: wt := by
    cases e : tk.word with
    | nil => rw [e] at hwpos; simp at hwpos
    | cons a b => exact ⟨a, b, rfl⟩
  have hhead : c_isalnum w0 = true :=
    trimWord_head_alnum (w := tk.raw) (by rw [← hword, hw])
  obtain ⟨lb, hlb⟩ : ∃ lb, tk.word.getLast? = some lb := by
    cases e : tk.word.getLast? with
    | none =>
      rw [List.getLast?_eq_none_iff.mp e] at hw
      simp at hw
    | some lb => exact ⟨lb, rfl⟩
  have hlast : c_isalnum lb = true :=
    trimWord_getLast_alnum (w := tk.raw) (by rw [← hword]; exact hlb)
  have hmemw : ∀ b ∈ tk.word, b ≠ 32 ∧ b ≠ 60 ∧ b ≠ 0 := by
    intro b hb
    have hbr : b ∈ tk.raw := by rw [hword] at hb; exact mem_of_mem_trimWord hb
    obtain ⟨htb, hbs⟩ := hchars b hbr
    have h0 : b ≠ 0 := by simpa using List.mem_takeWhile_imp (p := fun b => !(b == 0)) hbs
    exact ⟨(tokByte_ne htb).1, (tokByte_ne htb).2, h0⟩
  have hlen : tk.word.length ≤ 99 := by
    have h1 : tk.word.length ≤ tk.raw.length := by
      rw [hword]; exact length_trimWord_le _
    omega
  rw [hw] at hmemw hlen hlb ⊢
  rw [lowerFirst_cons]
  have hlastD : ∀ x : Nat, c_isalnum x = true →
      c_isalnum ((x :: wt).getLastD 0) = true := by
    intro x hx
    cases wt with
    | nil => simpa using hx
    | cons c ct =>
      simp only [List.getLastD_eq_getLast?]
      rw [show (x :: c :: ct).getLast? = (c :: ct).getLast? from rfl]
      rw [show (w0 :: c :: ct).getLast? = (c :: ct).getLast? from rfl] at hlb
      rw [hlb]
      exact hlast
  cases hup : c_isupper w0 with
  | true =>
    rw [if_pos rfl]
    obtain ⟨hal, hnu⟩ := lower_of_upper hup
    obtain ⟨hne32, hne60, hne0⟩ := c_isalnum_ne hal
    refine niceTok_cons hal hnu (by simpa using hlen) ?_ ?_
    · intro b hb
      rcases List.mem_cons.mp hb with rfl | hb
      · exact ⟨hne32, hne60, hne0⟩
      · exact hmemw b (List.mem_cons_of_mem _ hb)
    · exact hlastD _ hal
  | false =>
    rw [if_neg (by simp [hup])]
    refine niceTok_cons hhead hup (by simpa using hlen) hmemw (hlastD _ hhead)

/-! ## Graceful termination on an unterminated tag -/

theorem searchTagAt_ltv {v : List Nat} (hv : 62 ∉ v) :
    searchTagAt (60 :: v) 0 = .stop (-1) 1 := by
  have hqv : ∀ b ∈ v, (fun b => !(b == 62)) b = true := by
    intro b hb
    have hb62 : b ≠ 62 := fun e => hv (e ▸ hb)
    simp [hb62]
  show searchHtmlTag ((60 :: v).length + 1) (60 :: v) 0 = _
  rw [show (60 :: v).length + 1 = (v.length + 1) + 1 by simp]
  exact searchFirst_cons_none _ _ (dropWhile_of_all hqv)

theorem extractLoop_ltv {f : Nat} {v : List Nat} (hv : 62 ∉ v) (hf : 0 < f) :
    (extractLoop f (60 :: v) 0).1 = [] := by
  obtain ⟨f', rfl⟩ : ∃ f', f = f' + 1 := ⟨f - 1, by omega⟩
  rw [extractLoop_stop_eq (by decide) (searchTagAt_ltv hv)]

/-- Appending `'<' :: v` with no `'>'` in `v` to the input does not change
the produced bytes: the loop stops at that `'<'`. -/
theorem extractLoop_break :
    ∀ (n : Nat) {w v : List Nat} {f g : Nat}, w.length ≤ n →
    62 ∉ v → (w ++ 60 :: v).length < f → w.length < g →
    (extractLoop f (w ++ 60 :: v) 0).1 = (extractLoop g w 0).1 := by
  intro n
  induction n with
  | zero =>
    intro w v f g hn hv hf hg
    have hw : w = [] := List.length_eq_zero.mp (Nat.le_zero.mp hn)
    subst hw
    rw [List.nil_append, extractLoop_ltv hv (by omega), extractLoop_nil]
  | succ n ih =>
    intro w v f g hn hv hf hg
    cases w with
    | nil =>
      rw [List.nil_append, extractLoop_ltv hv (by omega), extractLoop_nil]
    | cons b wt =>
      simp only [List.length_append, List.length_cons] at hf
      rw [List.length_cons] at hn hg
      obtain ⟨f', rfl⟩ : ∃ f', f = f' + 1 := ⟨f - 1, by omega⟩
      obtain ⟨g', rfl⟩ : ∃ g', g = g' + 1 := ⟨g - 1, by omega⟩
      by_cases hb : (b == 60) = true
      · -- the loop is at a tag in both runs
        have hb60 : b = 60 := by simpa using hb
        subst hb60
        have happ := searchHtmlTag_append (60 :: wt).length (w := 60 :: wt) (v := v)
          (f := ((60 :: wt) ++ 60 :: v).length + 1) (g := (60 :: wt).length + 1)
          le_rfl hv (by simp)
          (by simp [List.length_append]; omega) (Nat.lt_succ_self _)
        rcases happ with ⟨w2, hL, hR⟩ | ⟨⟨a1, b1, hL⟩, hR⟩
        · have hL' : searchTagAt (60 :: (wt ++ 60 :: v)) 0 = .tag (w2 ++ 60 :: v) := by
            rw [searchTagAt]
            rw [show (60 :: (wt ++ 60 :: v)).length + 1 =
              ((60 :: wt) ++ 60 :: v).length + 1 by simp [List.length_append]]
            rw [show (60 : Nat) :: (wt ++ 60 :: v) = (60 :: wt) ++ 60 :: v from rfl]
            exact hL
          have hR' : searchTagAt (60 :: wt) 0 = .tag w2 := hR
          rw [List.cons_append, extractLoop_tag_eq (by decide) hL',
            extractLoop_tag_eq (by decide) hR']
          have hw2 : w2.length < (60 :: wt).length := searchHtmlTag_tag_length hR
          rw [List.length_cons] at hw2
          show (extractLoop f' (w2 ++ 60 :: v) 0).1 = (extractLoop g' w2 0).1
          exact ih (by omega) hv
            (by simp only [List.length_append, List.length_cons]; omega) (by omega)
        · have hL' : searchTagAt (60 :: (wt ++ 60 :: v)) 0 = .stop a1 b1 := by
            rw [searchTagAt]
            rw [show (60 :: (wt ++ 60 :: v)).length + 1 =
              ((60 :: wt) ++ 60 :: v).length + 1 by simp [List.length_append]]
            rw [show (60 : Nat) :: (wt ++ 60 :: v) = (60 :: wt) ++ 60 :: v from rfl]
            exact hL
          rw [List.cons_append, extractLoop_stop_eq (by decide) hL']
          rcases hR with ⟨a2, b2, hR⟩ | hR
          · rw [extractLoop_stop_eq (by decide)
              (show searchTagAt (60 :: wt) 0 = .stop a2 b2 from hR)]
          · rw [extractLoop_tag_eq (by decide)
              (show searchTagAt (60 :: wt) 0 = .tag [] from hR), extractLoop_nil]
      · -- the loop is at a token run in both runs
        have hbf : (b == 60) = false := by simpa using hb
        rw [List.cons_append, extractLoop_tok_eq hbf, extractLoop_tok_eq hbf]
        cases hstop : (b :: wt).dropWhile tokByte with
        | nil =>
          have hall := all_of_dropWhile_eq_nil hstop
          have hrawL : (b :: (wt ++ 60 :: v)).takeWhile tokByte = b :: wt := by
            rw [show b :: (wt ++ 60 :: v) = (b :: wt) ++ 60 :: v from rfl,
              takeWhile_append_of_all hall, List.takeWhile_cons,
              if_neg (by simp [tokByte]), List.append_nil]
          have hdropL : (b :: (wt ++ 60 :: v)).dropWhile tokByte = 60 :: v := by
            rw [show b :: (wt ++ 60 :: v) = (b :: wt) ++ 60 :: v from rfl,
              dropWhile_append_of_all hall, List.dropWhile_cons,
              if_neg (by simp [tokByte])]
          have hrawR : (b :: wt).takeWhile tokByte = b :: wt := takeWhile_of_all hall
          rw [hrawL, hdropL, hrawR,
            show skipSpace (60 :: v) = 60 :: v by simp [skipSpace],
            show skipSpace [] = [] from rfl]
          have hresL : (extractLoop f' (60 :: v) 0).1 = [] :=
            extractLoop_ltv hv (by omega)
          by_cases hC : 0 < (b :: wt).length ∧ (b :: wt).length < 100 ∧
              0 < (trimWord (b :: wt)).length
          · rw [if_pos hC, if_pos hC]
            show lowerFirst (trimWord (b :: wt)) ++
                32 :: (extractLoop f' (60 :: v) 0).1 =
              lowerFirst (trimWord (b :: wt)) ++ 32 :: (extractLoop g' [] 0).1
            rw [hresL, extractLoop_nil]
          · rw [if_neg hC, if_neg hC]
            show (extractLoop f' (60 :: v) 0).1 = (extractLoop g' [] 0).1
            rw [hresL, extractLoop_nil]
        | cons d t2 =>
          have hne : (b :: wt).dropWhile tokByte ≠ [] := by
            rw [hstop]; exact List.cons_ne_nil _ _
          have hrawL : (b :: (wt ++ 60 :: v)).takeWhile tokByte =
              (b :: wt).takeWhile tokByte := by
            rw [show b :: (wt ++ 60 :: v) = (b :: wt) ++ 60 :: v from rfl,
              takeWhile_append_of_stop hne]
          have hdropL : (b :: (wt ++ 60 :: v)).dropWhile tokByte =
              d :: (t2 ++ 60 :: v) := by
            rw [show b :: (wt ++ 60 :: v) = (b :: wt) ++ 60 :: v from rfl,
              dropWhile_append_of_stop hne, hstop, List.cons_append]
          have hlend : t2.length + 1 ≤ wt.length + 1 := by
            have := length_dropWhile_le tokByte (b :: wt)
            rw [hstop] at this; simpa using this
          rw [hrawL, hdropL]
          by_cases hd : (d == 60) = true
          · have htb : tokByte b = true := by
              cases h32 : (b == 32) with
              | true =>
                have hb32 : b = 32 := by simpa using h32
                subst hb32
                have : (32 : Nat) :: wt = d :: t2 := by
                  rw [← hstop, List.dropWhile_cons, if_neg (by simp [tokByte])]
                have hd32 : d = 32 := by cases this; rfl
                rw [hd32] at hd
                simp at hd
              | false => simp [tokByte, h32, hbf]
            have hlend2 : t2.length + 1 ≤ wt.length := by
              have : (b :: wt).dropWhile tokByte = wt.dropWhile tokByte := by
                rw [List.dropWhile_cons, if_pos htb]
              rw [this] at hstop
              have := length_dropWhile_le tokByte wt
              rw [hstop] at this; simpa using this
            rw [show skipSpace (d :: (t2 ++ 60 :: v)) = d :: (t2 ++ 60 :: v)
                by simp [skipSpace, hd],
              show skipSpace (d :: t2) = d :: t2 by simp [skipSpace, hd]]
            have hrec : (extractLoop f' (d :: (t2 ++ 60 :: v)) 0).1 =
                (extractLoop g' (d :: t2) 0).1 := by
              rw [show d :: (t2 ++ 60 :: v) = (d :: t2) ++ 60 :: v from rfl]
              exact ih (by simp only [List.length_cons]; omega) hv
                (by simp only [List.length_append, List.length_cons]; omega)
                (by rw [List.length_cons]; omega)
            by_cases hC : 0 < ((b :: wt).takeWhile tokByte).length ∧
                ((b :: wt).takeWhile tokByte).length < 100 ∧
                0 < (trimWord ((b :: wt).takeWhile tokByte)).length
            · rw [if_pos hC, if_pos hC]
              show lowerFirst (trimWord ((b :: wt).takeWhile tokByte)) ++
                  32 :: (extractLoop f' (d :: (t2 ++ 60 :: v)) 0).1 =
                lowerFirst (trimWord ((b :: wt).takeWhile tokByte)) ++
                  32 :: (extractLoop g' (d :: t2) 0).1
              rw [hrec]
            · rw [if_neg hC, if_neg hC]
              exact hrec
          · rw [show skipSpace (d :: (t2 ++ 60 :: v)) = t2 ++ 60 :: v
                by simp [skipSpace, hd],
              show skipSpace (d :: t2) = t2 by simp [skipSpace, hd]]
            have hrec : (extractLoop f' (t2 ++ 60 :: v) 0).1 =
                (extractLoop g' t2 0).1 := by
              exact ih (by omega) hv
                (by simp only [List.length_append, List.length_cons]; omega) (by omega)
            by_cases hC : 0 < ((b :: wt).takeWhile tokByte).length ∧
                ((b :: wt).takeWhile tokByte).length < 100 ∧
                0 < (trimWord ((b :: wt).takeWhile tokByte)).length
            · rw [if_pos hC, if_pos hC]
              show lowerFirst (trimWord ((b :: wt).takeWhile tokByte)) ++
                  32 :: (extractLoop f' (t2 ++ 60 :: v) 0).1 =
                lowerFirst (trimWord ((b :: wt).takeWhile tokByte)) ++
                  32 :: (extractLoop g' t2 0).1
              rw [hrec]
            · rw [if_neg hC, if_neg hC]
              exact hrec

/-! ## Re-running the extractor on its own output -/

theorem mem_renderToks : ∀ {ws : List (List Nat)} {b : Nat},
    b ∈ renderToks ws → b = 32 ∨ ∃ w ∈ ws, b ∈ w := by
  intro ws
  induction ws with
  | nil => intro b h; simp [renderToks] at h
  | cons w ws2 ih =>
    intro b h
    cases ws2 with
    | nil => exact Or.inr ⟨w, by simp, h⟩
    | cons w2 ws3 =>
      have h' : b ∈ w ++ 32 :: renderToks (w2 :: ws3) := h
      rcases List.mem_append.mp h' with hw | hr
      · exact Or.inr ⟨w, by simp, hw⟩
      · rcases List.mem_cons.mp hr with rfl | hr
        · exact Or.inl rfl
        · rcases ih hr with h32 | ⟨w', hw', hbw'⟩
          · exact Or.inl h32
          · exact Or.inr ⟨w', List.mem_cons_of_mem _ hw', hbw'⟩

/-- Running the driver loop on already-normalized output (well-formed words
joined by single spaces) re-emits exactly the same words. -/
theorem extractLoop_render : ∀ (ws : List (List Nat)) (f : Nat),
    (∀ w ∈ ws, niceTok w = true) → (renderToks ws).length < f →
    (extractLoop f (renderToks ws) 0).1 = (ws.map (· ++ [32])).flatten := by
  intro ws
  induction ws with
  | nil =>
    intro f _ _
    rw [show renderToks [] = [] from rfl, extractLoop_nil]
    rfl
  | cons w ws2 ih =>
    intro f hnice hf
    obtain ⟨w0, wt, rfl, hal, hup, hlen, hchars, hlast⟩ :=
      niceTok_elim (hnice w (List.mem_cons_self _ _))
    have htokw : ∀ x ∈ w0 :: wt, tokByte x = true := by
      intro x hx
      obtain ⟨h32, h60, _⟩ := hchars x hx
      simp [tokByte, h32, h60]
    have hb60 : ((w0 == 60) : Bool) = false := by
      have := (hchars w0 (by simp)).2.1
      simp [this]
    have htrim : trimWord (w0 :: wt) = w0 :: wt := by
      apply trimWord_eq_self hal
      intro b hb
      rw [List.getLastD_eq_getLast?, hb] at hlast
      simpa using hlast
    have hfold : lowerFirst (w0 :: wt) = w0 :: wt := lowerFirst_eq_self hup
    rw [List.length_cons] at hlen
    cases ws2 with
    | nil =>
      obtain ⟨f', rfl⟩ : ∃ f', f = f' + 1 := ⟨f - 1, by omega⟩
      show (extractLoop (f' + 1) (w0 :: wt) 0).1 = _
      rw [extractLoop_tok_eq hb60, takeWhile_of_all htokw, dropWhile_of_all htokw,
        show skipSpace [] = [] from rfl, extractLoop_nil, htrim, hfold]
      rw [if_pos ⟨by simp, by simp only [List.length_cons]; omega, by simp⟩]
      show (w0 :: wt) ++ 32 :: ([] : List Nat) = _
      simp
    | cons w2 ws3 =>
      have hrt : renderToks ((w0 :: wt) :: w2 :: ws3) =
          (w0 :: wt) ++ 32 :: renderToks (w2 :: ws3) := rfl
      rw [hrt] at hf ⊢
      rw [List.length_append, List.length_cons, List.length_cons] at hf
      obtain ⟨f', rfl⟩ : ∃ f', f = f' + 1 := ⟨f - 1, by omega⟩
      have hraw : (w0 :: (wt ++ 32 :: renderToks (w2 :: ws3))).takeWhile tokByte =
          w0 :: wt := by
        rw [show w0 :: (wt ++ 32 :: renderToks (w2 :: ws3)) =
            (w0 :: wt) ++ 32 :: renderToks (w2 :: ws3) from rfl,
          takeWhile_append_of_all htokw, List.takeWhile_cons,
          if_neg (by simp [tokByte]), List.append_nil]
      have hdrop : (w0 :: (wt ++ 32 :: renderToks (w2 :: ws3))).dropWhile tokByte =
          32 :: renderToks (w2 :: ws3) := by
        rw [show w0 :: (wt ++ 32 :: renderToks (w2 :: ws3)) =
            (w0 :: wt) ++ 32 :: renderToks (w2 :: ws3) from rfl,
          dropWhile_append_of_all htokw, List.dropWhile_cons,
          if_neg (by simp [tokByte])]
      rw [List.cons_append, extractLoop_tok_eq hb60, hraw, hdrop,
        show skipSpace (32 :: renderToks (w2 :: ws3)) = renderToks (w2 :: ws3)
          by simp [skipSpace], htrim, hfold]
      rw [if_pos ⟨by simp, by simp only [List.length_cons]; omega, by simp⟩]
      have hih := ih f' (fun w' hw' => hnice w' (List.mem_cons_of_mem _ hw'))
        (by omega)
      show (w0 :: wt) ++ 32 :: (extractLoop f' (renderToks (w2 :: ws3)) 0).1 = _
      rw [hih]
      simp [List.append_assoc]

theorem renderToks_no_nul {ws : List (List Nat)}
    (h : ∀ w ∈ ws, niceTok w = true) : cstrBytes (renderToks ws) = renderToks ws := by
  apply takeWhile_of_all
  intro b hb
  rcases mem_renderToks hb with rfl | ⟨w, hw, hbw⟩
  · simp
  · obtain ⟨w0, wt, hweq, _, _, _, hchars, _⟩ := niceTok_elim (h w hw)
    have := (hchars b hbw).2.2
    simp [this]

/-- The extractor is the identity on any output made of well-formed words
joined by single spaces. -/
theorem html2text_render_nice {ws : List (List Nat)}
    (h : ∀ w ∈ ws, niceTok w = true) :
    html2text_c (renderToks ws) = renderToks ws := by
  unfold html2text_c extractRun
  rw [renderToks_no_nul h,
    extractLoop_render ws _ h (Nat.lt_succ_self _)]
  exact removeTrailing_flatten_blocks ws

/-- `html2text_c` is idempotent. -/
theorem html2text_idem (s : List Nat) :
    html2text_c (html2text_c s) = html2text_c s := by
  rw [html2text_eq_render s]
  apply html2text_render_nice
  intro w hw
  rcases List.mem_map.mp hw with ⟨tk, htk, rfl⟩
  exact toks_word_nice htk

theorem extractRun_out_join (s : List Nat) :
    (extractRun s).1 =
      ((extractRun s).2.1.map (fun tk => lowerFirst tk.word ++ [32])).flatten :=
  extractLoop_out_join _

/-! ## The claims -/

/-- Claim C1, counterexample: on the input `"<b>Hello</b> World"` the
extractor does NOT return `"hello World"` — line 102 of `html2text.cpp`
folds the first letter of every emitted token, so `"World"` is folded too. -/
theorem claim1_counterexample :
    (html2text_c (strBytes "<b>Hello</b> World") == strBytes "hello World") = false := by
  decide

/-- Claim C1, amended: `extract_text("<b>Hello</b> World")` returns
`"hello world"` — the leading uppercase letter of every token is lowercased,
including later tokens such as `"World"`; the case-folding is per token, not
only for the first token of the document. -/
theorem claim1_amended :
    html2text_c (strBytes "<b>Hello</b> World") = strBytes "hello world" := by
  decide

/-- Claim C2: for every input byte sequence the output of `extract_text` is
no longer than the input, and the bytes written by the loop before the
trailing-space removal fit in the `input-length + 1` buffer allocated at
line 75. -/
theorem claim2_output_le_input (s : List Nat) :
    (html2text_c s).length ≤ s.length ∧
    (extractRun s).1.length ≤ s.length + 1 := by
  have hcs : (cstrBytes s).length ≤ s.length := length_takeWhile_le _ _
  have h2 : (extractRun s).1.length ≤ (cstrBytes s).length + 1 :=
    le_trans (extractLoop_len_le _) (by split <;> omega)
  refine ⟨?_, le_trans h2 (by omega)⟩
  have hshape : (extractRun s).1 = [] ∨ (extractRun s).1.getLast? = some 32 := by
    rw [extractRun_out_join s,
      show (fun tk : Tok => lowerFirst tk.word ++ [32]) =
        ((· ++ [32]) ∘ fun tk : Tok => lowerFirst tk.word) from rfl,
      ← List.map_map]
    cases hts : (extractRun s).2.1.map (fun tk => lowerFirst tk.word) with
    | nil => exact Or.inl rfl
    | cons w ws2 =>
      right
      rw [flatten_blocks_eq _ (List.cons_ne_nil w ws2)]
      exact List.getLast?_concat _
  unfold html2text_c removeTrailingSpace
  rcases hshape with hnil | hlast
  · rw [hnil]
    simp
  · rw [if_pos hlast, List.length_dropLast]
    omega

/-- Claim C3: every emitted token comes from a raw (untrimmed) run of fewer
than 100 bytes — a run of 100 bytes or more contributes nothing to the
output (combined with `claim7_per_token_fold`, the output is exactly the
emitted tokens) — while a 99-byte alphanumeric token is emitted in full. -/
theorem claim3_oversize_dropped :
    (∀ s : List Nat,
      ((extractRun s).2.1.all (fun tk => decide (tk.raw.length < 100))) = true) ∧
    html2text_c (List.replicate 100 97) = [] ∧
    html2text_c (List.replicate 99 97) = List.replicate 99 97 := by
  refine ⟨fun s => ?_, by decide, by decide⟩
  refine List.all_eq_true.mpr fun tk htk => ?_
  exact decide_eq_true (extractLoop_toks _ htk).2.2.2.1

/-- Claim C4: a `'<'` with no `'>'` anywhere after it terminates extraction
gracefully: nothing after that `'<'` is emitted and the result is exactly
the result for the prefix before it. -/
theorem claim4_unterminated_tag (u v : List Nat) (hv : 62 ∉ v) :
    html2text_c (u ++ 60 :: v) = html2text_c u := by
  unfold html2text_c extractRun
  by_cases h0 : (0 : Nat) ∈ u
  · have hstop : cstrBytes (u ++ 60 :: v) = cstrBytes u := by
      unfold cstrBytes
      have hne : u.dropWhile (fun b => !(b == 0)) ≠ [] := by
        intro he
        have := all_of_dropWhile_eq_nil he 0 h0
        simp at this
      rw [takeWhile_append_of_stop hne]
    rw [hstop]
  · have hall : ∀ b ∈ u, (fun b => !(b == 0)) b = true := by
      intro b hb
      have hb0 : b ≠ 0 := fun e => h0 (e ▸ hb)
      simp [hb0]
    have hcu : cstrBytes u = u := takeWhile_of_all hall
    have hl : cstrBytes (u ++ 60 :: v) = u ++ 60 :: cstrBytes v := by
      unfold cstrBytes
      rw [takeWhile_append_of_all hall, List.takeWhile_cons, if_pos (by simp)]
    rw [hl, hcu]
    congr 1
    exact extractLoop_break u.length le_rfl
      (fun hm => hv (mem_of_mem_takeWhile hm))
      (Nat.lt_succ_self _) (Nat.lt_succ_self _)

/-- Witness for C4 at a concrete input: `"ab<cd"` extracts to the same
bytes as `"ab"`. -/
theorem claim4_witness :
    html2text_c ([97, 98] ++ 60 :: [99, 100]) = html2text_c [97, 98] :=
  claim4_unterminated_tag [97, 98] [99, 100] (by decide)

/-- Claim C5: the tag scanner chains past adjacent tags — a successful call
never returns with the cursor on a `'<'` — and
`extract_text("<a><b>text</b></a>")` is `"text"` with no stray tokens. -/
theorem claim5_adjacent_tags :
    (∀ (r : List Nat) (cond : Nat) (r' : List Nat),
        searchTagAt r cond = .tag r' → (r'.head? == some 60) = false) ∧
    html2text_c (strBytes "<a><b>text</b></a>") = strBytes "text" :=
  ⟨fun _ _ _ h => searchHtmlTag_tag_head h, by decide⟩

/-- Witness for C5 at a concrete input: skipping `"<a>"` in `"<a>t<"` lands
on `'t'`, not on a `'<'`. -/
theorem claim5_witness : ((([116, 60] : List Nat).head? == some 60) = false) :=
  claim5_adjacent_tags.1 [60, 97, 62, 116, 60] 0 [116, 60] (by decide)

/-- Claim C6: the output never begins or ends with a space and never
contains two adjacent spaces; runs of input spaces collapse to one
separator. -/
theorem claim6_space_normalized :
    (∀ s : List Nat, spaceNormalized (html2text_c s) = true) ∧
    html2text_c (strBytes "word1   word2") = strBytes "word1 word2" := by
  refine ⟨fun s => ?_, by decide⟩
  rw [html2text_eq_render s]
  apply render_spaceNormalized
  intro w hw
  rcases List.mem_map.mp hw with ⟨tk, htk, rfl⟩
  obtain ⟨w0, wt, hweq, _, _, _, hchars, _⟩ := niceTok_elim (toks_word_nice htk)
  constructor
  · rw [hweq]; exact List.cons_ne_nil _ _
  · intro x hx
    exact (hchars x hx).1

/-- Claim C7: the loop's output is exactly the emitted tokens, each followed
by one separating space; every emitted token is nonempty and is the trimmed
raw run; the first byte of a token is lowercased exactly when it is an
uppercase letter and the rest is copied verbatim — and this folding applies
to each token, as `extract_text("Hello World") = "hello world"` shows. -/
theorem claim7_per_token_fold :
    (∀ s : List Nat,
      (extractRun s).1 =
        ((extractRun s).2.1.map (fun tk => lowerFirst tk.word ++ [32])).flatten ∧
      ((extractRun s).2.1.all (fun tk =>
        decide (0 < tk.word.length) && (tk.word == trimWord tk.raw))) = true) ∧
    (∀ (b : Nat) (t : List Nat),
      lowerFirst (b :: t) = (if c_isupper b then b + 32 else b) :: t) ∧
    html2text_c (strBytes "Hello World") = strBytes "hello world" := by
  refine ⟨fun s => ⟨extractLoop_out_join _, ?_⟩, fun b t => rfl, by decide⟩
  refine List.all_eq_true.mpr fun tk htk => ?_
  obtain ⟨h1, h2, _⟩ := extractLoop_toks _ htk
  exact Bool.and_eq_true_iff.mpr ⟨decide_eq_true h2, beq_iff_eq.mpr h1⟩

/-- Claim C8: `extract_text` is idempotent on its own output (proved for all
inputs, with no restriction to digit-free or ASCII-only inputs). -/
theorem claim8_idempotent (s : List Nat) :
    html2text_c (html2text_c s) = html2text_c s :=
  html2text_idem s

/-- Claim C9: bytes at and after the first NUL never influence the result:
the output on `u ++ NUL :: v` equals the output on `u`, because all lengths
come from `strlen`. -/
theorem claim9_nul_clips (u v : List Nat) (h0 : (0 : Nat) ∉ u) :
    html2text_c (u ++ 0 :: v) = html2text_c u := by
  unfold html2text_c extractRun
  have hall : ∀ b ∈ u, (fun b => !(b == 0)) b = true := by
    intro b hb
    have hb0 : b ≠ 0 := fun e => h0 (e ▸ hb)
    simp [hb0]
  have hcs : cstrBytes (u ++ 0 :: v) = cstrBytes u := by
    unfold cstrBytes
    rw [takeWhile_append_of_all hall, List.takeWhile_cons, if_neg (by simp),
      List.append_nil, takeWhile_of_all hall]
  rw [hcs]

/-- Witness for C9 at a concrete input: `"hi" ++ NUL ++ "x"` extracts to the
same bytes as `"hi"`. -/
theorem claim9_witness :
    html2text_c ([104, 105] ++ 0 :: [120]) = html2text_c [104, 105] :=
  claim9_nul_clips [104, 105] [120] (by decide)

/-- Claim C10: every `SearchHtmlTag` call made by the driver loop passes
`condition = HTML_FIRST` (the loop breaks permanently as soon as the flag is
set to `HTML_MID`), and in `HTML_FIRST` mode the scanner can never reach the
`HTML_MID` scan loop that lacks an end-of-buffer check. -/
theorem claim10_condition_first :
    (∀ s : List Nat, ((extractRun s).2.2.all (fun c => c == 0)) = true) ∧
    (∀ (f : Nat) (r : List Nat), isUndefB (searchHtmlTag f r 0) = false) := by
  refine ⟨fun s => ?_, searchHtmlTag_first_not_ub⟩
  refine List.all_eq_true.mpr fun c hc => ?_
  have hc0 := extractLoop_conds _ hc
  simp [hc0]

end TactileWeb